import Mathlib

/-!
A verification development for `rename.py`, a Plex-style media renamer.

The program's core is `format_name`, a pure string transformation; around it
sit `rename_entity` (per-entity skip rules plus the actual rename) and
`walk_directory` (a top-down directory walk).  We embed the three of them
shallowly: strings become `List Char` (wrapped in `String` at the interface),
the regular-expression operations used by the code are spelled out as
executable functions with the exact matching semantics of the Python
originals (leftmost, non-overlapping, greedy where it matters), and the
filesystem becomes an explicit tree of entries.

Character classes: the Python code runs `re` in Unicode mode; the embedding
models names over ASCII, where `\w` is `[A-Za-z0-9_]`, `\s` is the six ASCII
whitespace characters and `\d` is `[0-9]`.
-/

namespace Plex

/-- ASCII `\w` of Python's `re`. -/
def wordChar (c : Char) : Bool := c.isAlphanum || c = '_'

/-- ASCII `\s` of Python's `re` (also the set stripped by `str.strip`). -/
def spaceChar (c : Char) : Bool :=
  c = ' ' || c = '\t' || c = '\n' || c = '\r' || c = '\x0b' || c = '\x0c'

/-- The character class `[\._-]` of the separator-collapsing substitution. -/
def sepChar (c : Char) : Bool := c = '.' || c = '_' || c = '-'

/-- Split a list at its last occurrence of `ch`:
`splitLastOn ch s = some (a, b)` when `s = a ++ ch :: b` with `b` free of
`ch`; `none` when `ch` does not occur. -/
def splitLastOn (ch : Char) : List Char → Option (List Char × List Char)
  | [] => none
  | c :: r =>
    match splitLastOn ch r with
    | some (a, b) => some (c :: a, b)
    | none => if c = ch then some ([], r) else none

/-- `os.path.splitext` on a basename: split at the last dot, provided some
character before that dot is not itself a dot (so `".bashrc"` has no
extension); the extension keeps its leading dot. -/
def splitext (s : List Char) : List Char × List Char :=
  match splitLastOn '.' s with
  | none => (s, [])
  | some (st, ex) => if st.any (fun c => c ≠ '.') then (st, '.' :: ex) else (s, [])

/-- `str.replace('&', 'and')`: every ampersand becomes the word `and`. -/
def replaceAmp : List Char → List Char
  | [] => []
  | c :: r => if c = '&' then 'a' :: 'n' :: 'd' :: replaceAmp r else c :: replaceAmp r

/-- The body of `re.match(r'^[\w\s]+ \(\d{4}\)$', s)` with `$` read as
end-of-string: `s` is a nonempty block of word/space characters, a space,
and a four-digit year in parentheses. -/
def canonicalCore (s : List Char) : Bool :=
  match s.reverse with
  | ')' :: d4 :: d3 :: d2 :: d1 :: '(' :: ' ' :: rest =>
    d1.isDigit && d2.isDigit && d3.isDigit && d4.isDigit &&
      !rest.isEmpty && rest.all (fun c => wordChar c || spaceChar c)
  | _ => false

/-- `re.match(r'^[\w\s]+ \(\d{4}\)$', s)`: Python's `$` also matches just
before a trailing newline. -/
def canonicalMatch (s : List Char) : Bool :=
  canonicalCore s ||
    (if s.getLast? = some '\n' then canonicalCore s.dropLast else false)

/-- Replace every maximal run of characters satisfying `p` by the single
character `rep` (the effect of `re.sub(r'[class]+', rep, s)`); the flag
records whether the previous character was in a run. -/
def collapseRunsAux (p : Char → Bool) (rep : Char) : Bool → List Char → List Char
  | _, [] => []
  | inRun, c :: r =>
    if p c then
      if inRun then collapseRunsAux p rep true r
      else rep :: collapseRunsAux p rep true r
    else c :: collapseRunsAux p rep false r

/-- `re.sub(r'[\._-]+', ' ', s)`. -/
def collapseSeps (s : List Char) : List Char := collapseRunsAux sepChar ' ' false s

/-- `re.sub(r'\s+', ' ', s)`. -/
def collapseWs (s : List Char) : List Char := collapseRunsAux spaceChar ' ' false s

/-- Drop the trailing run of characters satisfying `p`. -/
def dropTrailingWhile (p : Char → Bool) (s : List Char) : List Char :=
  (s.reverse.dropWhile p).reverse

/-- `re.sub(r'[-\s]+$', '', s)`: erase the trailing run of hyphens and
whitespace (with `\n` itself in `\s`, the `$`-before-newline case adds
nothing). -/
def dropTrailingHyphWs (s : List Char) : List Char :=
  dropTrailingWhile (fun c => c = '-' || spaceChar c) s

/-- `str.strip()`: remove leading and trailing whitespace. -/
def stripWs (s : List Char) : List Char :=
  dropTrailingWhile spaceChar (s.dropWhile spaceChar)

/-- Case-insensitive prefix test (`re.IGNORECASE` over ASCII). -/
def isPrefixCI : List Char → List Char → Bool
  | [], _ => true
  | _ :: _, [] => false
  | p :: ps, c :: cs => (p.toLower = c.toLower) && isPrefixCI ps cs

/-- A matcher returns the number of characters a pattern consumes at the
front of the list, if it matches there. -/
def Matcher : Type := List Char → Option Nat

/-- Matcher for a literal pattern under `re.IGNORECASE`. -/
def litCI (pat : List Char) : Matcher := fun s =>
  if isPrefixCI pat s then some pat.length else none

/-- Matcher for `\.S\d+E\d+\.` under `re.IGNORECASE`: a dot, `s`, one or
more digits, `e`, one or more digits, a dot.  The greedy `\d+` is
deterministic here because a digit can never double as `e` or `.`. -/
def seasonMatcher : Matcher := fun s =>
  match s with
  | '.' :: c :: r =>
    if c.toLower = 's' then
      let d1 := r.takeWhile Char.isDigit
      let r1 := r.dropWhile Char.isDigit
      if d1.isEmpty then none
      else
        match r1 with
        | e :: r2 =>
          if e.toLower = 'e' then
            let d2 := r2.takeWhile Char.isDigit
            let r3 := r2.dropWhile Char.isDigit
            if d2.isEmpty then none
            else
              match r3 with
              | '.' :: _ => some (2 + d1.length + 1 + d2.length + 1)
              | _ => none
          else none
        | [] => none
    else none
  | _ => none

/-- Matcher for `\(\s*\)`: an opening parenthesis, any run of whitespace,
a closing parenthesis (again deterministic: `)` is not whitespace). -/
def emptyParensMatcher : Matcher := fun s =>
  match s with
  | '(' :: r =>
    let ws := r.takeWhile spaceChar
    match r.dropWhile spaceChar with
    | ')' :: _ => some (ws.length + 2)
    | _ => none
  | _ => none

/-- `re.sub(pattern, '', s)`: delete every leftmost, non-overlapping match
of the pattern, scanning left to right and never rescanning produced text.
Structural fuel (initialised to the length) keeps the definition
kernel-reducible; a match always consumes at least one character. -/
def removeMatchesF (m : Matcher) : Nat → List Char → List Char
  | 0, s => s
  | _ + 1, [] => []
  | f + 1, c :: r =>
    match m (c :: r) with
    | some n => removeMatchesF m f (r.drop (n - 1))
    | none => c :: removeMatchesF m f r

/-- Delete every match of `m` from `s`. -/
def removeMatches (m : Matcher) (s : List Char) : List Char :=
  removeMatchesF m s.length s

/-- The `patterns_to_remove` catalog of `format_name`, in source order;
each entry is applied as one case-insensitive `re.sub(..., '')` pass. -/
def patterns_to_remove : List Matcher :=
  [litCI "[1080p]".toList, litCI "[480p]".toList, litCI "[WEBRip]".toList,
   litCI "[BluRay]".toList, litCI "[5.1]".toList, litCI "[YTS.MX]".toList,
   litCI "[2160p]".toList, litCI "[4K]".toList, litCI "[WEB]".toList,
   litCI "x264".toList, litCI "x265".toList, litCI "H264".toList,
   litCI "H265".toList, litCI ".HDR.".toList, seasonMatcher,
   litCI ".AC3.".toList, litCI ".EAC3.".toList, litCI ".AAC.".toList,
   litCI ".MP3.".toList, litCI ".AVC.".toList, litCI "HEVC".toList,
   litCI "-".toList]

/-- Is there a four-digit window (`\d{4}`) at the head of the list? -/
def digits4At : List Char → Bool
  | a :: b :: c :: d :: _ => a.isDigit && b.isDigit && c.isDigit && d.isDigit
  | _ => false

/-- `re.search(r'(\d{4})', s)`: the first (leftmost) four-digit window. -/
def firstWindow : List Char → Option (List Char)
  | [] => none
  | c :: r => if digits4At (c :: r) then some ((c :: r).take 4) else firstWindow r

/-- The start index of the rightmost four-digit window, if any. -/
def lastWindowStart (s : List Char) : Option Nat :=
  ((List.range s.length).filter (fun i => digits4At (s.drop i))).getLast?

/-- One newline-free segment of `re.sub(r'(.*)\d{4}.*', r'\1', s)`: the
greedy `(.*)` makes the match keep everything before the *rightmost*
four-digit window and discard the rest; a segment without a window is left
alone. -/
def truncLine (s : List Char) : List Char :=
  match lastWindowStart s with
  | some i => s.take i
  | none => s

/-- Split at newlines (Python `.` does not match `\n`, so the substitution
acts on each newline-free segment independently). -/
def splitLines : List Char → List (List Char)
  | [] => [[]]
  | c :: r =>
    if c = '\n' then [] :: splitLines r
    else
      match splitLines r with
      | h :: t => (c :: h) :: t
      | [] => [[c]]

/-- Rejoin newline-separated segments. -/
def joinLines : List (List Char) → List Char
  | [] => []
  | [l] => l
  | l :: r :: t => l ++ '\n' :: joinLines (r :: t)

/-- `re.sub(r'(.*)\d{4}.*', r'\1', s)` in full. -/
def truncAtYear (s : List Char) : List Char :=
  joinLines ((splitLines s).map truncLine)

/-- The year `format_name` settles on: the first four-digit window of the
cleaned name, else the caller-supplied fallback; an absent fallback and an
empty one are alike (Python truthiness of `None` and `""`). -/
def yearOf (name : List Char) (year_from_file : Option (List Char)) : List Char :=
  match firstWindow name with
  | some y => y
  | none => year_from_file.getD []

/-- Lines 39–43 of the source: with a year, truncate (strip, strip again)
and append ` (year)`; without one, delete empty parenthesis pairs. -/
def assembled (name year : List Char) : List Char :=
  if year.isEmpty then removeMatches emptyParensMatcher name
  else stripWs (stripWs (truncAtYear name)) ++ (' ' :: '(' :: (year ++ [')']))

/-- Lines 31–46 of the source: everything `format_name` does to a stem
that failed the short-circuit check — separator collapse, the removal
catalog, year search, truncation-and-append or empty-parenthesis cleanup,
and the final trimming. -/
def cleanStem (entity : List Char) (year_from_file : Option (List Char)) :
    List Char :=
  let name := patterns_to_remove.foldl (fun n m => removeMatches m n)
    (collapseSeps entity)
  stripWs (collapseWs (stripWs (dropTrailingHyphWs
    (assembled name (yearOf name year_from_file)))))

/-- `format_name` after the stem/extension split: ampersand replacement,
the canonical short-circuit, else the cleaning pipeline, and the extension
reattached for files. -/
def formatAfterSplit (stem ext : List Char) (is_file : Bool)
    (year_from_file : Option (List Char)) : List Char :=
  if canonicalMatch (splitext (replaceAmp stem)).1 then replaceAmp stem ++ ext
  else if is_file then cleanStem (replaceAmp stem) year_from_file ++ ext
  else cleanStem (replaceAmp stem) year_from_file

/-- The core of `format_name` on character lists, mirroring the source
line by line: files are split with `os.path.splitext` first, directories
are processed whole with an empty extension. -/
def formatNameL (entity0 : List Char) (is_file : Bool)
    (year_from_file : Option (List Char)) : List Char :=
  if is_file then
    formatAfterSplit (splitext entity0).1 (splitext entity0).2 true year_from_file
  else formatAfterSplit entity0 [] false year_from_file

/-- A well-formed reattachable extension: empty, or a dot followed by a
dot-free tail (the only shapes `os.path.splitext` produces). -/
def validExt : List Char → Bool
  | [] => true
  | c :: u => c = '.' && u.all (fun x => x ≠ '.')

/-- Does `pat` occur as a contiguous subsequence of `s`? -/
def containsSeq (pat : List Char) : List Char → Bool
  | [] => pat.isEmpty
  | c :: r => pat.isPrefixOf (c :: r) || containsSeq pat r

/-- The final dot-delimited suffix of a name: everything from the last
dot on, or empty when there is no dot. -/
def lastDotSuffix (s : List Char) : List Char :=
  match splitLastOn '.' s with
  | none => []
  | some (_, aft) => '.' :: aft

/-- `format_name` of `rename.py` on strings. -/
def format_name (entity : String) (is_file : Bool)
    (year_from_file : Option String) : String :=
  String.mk (formatNameL entity.toList is_file (year_from_file.map String.toList))

/-! ### The entity renamer and the directory walk

`rename_entity` first runs four skip checks, then (for directories) scans
the children for a fallback year, computes the normalized name and either
does nothing, logs the intended rename (dry run) or performs it (live).
`walk_directory` drives `os.walk(..., topdown=True)`, pruning hidden and
ignored directories from descent and hidden files from processing, and at
each level processes the files first, then the directories.

The filesystem is modelled as a tree of named entries; the walk carries it
explicitly (a live rename mutates it, so that descent after a directory
rename finds nothing at the old path, exactly as `os.walk` silently
swallows the `scandir` failure with its default `onerror=None`).
`os.rename` is modelled as succeeding exactly when the source exists and
no entry of the target name does. -/

/-- `str.startswith` (list-based, so that the kernel can evaluate it). -/
def strStarts (s pre : String) : Bool := pre.toList.isPrefixOf s.toList

/-- `str.endswith`. -/
def strEnds (s suf : String) : Bool := suf.toList.reverse.isPrefixOf s.toList.reverse

/-- The log lines `rename_entity` can emit, by message template. -/
inductive Log where
  | skipHidden (entity : String)
  | skipIgnoredDir (rootPath : String)
  | skipExt (entity : String)
  | skipShadow (entity : String)
  | dryRun (src dst : String)
  | renamed (src dst : String)
  | renameError (src dst : String)
  | noop (path : String)
deriving DecidableEq, Repr

inductive Level where
  | info
  | error
deriving DecidableEq, Repr

/-- All messages are `logging.info` except the rename failure. -/
def Log.level : Log → Level
  | .renameError _ _ => .error
  | _ => .info

/-- `os.path.join(a, b)` for a single extra component. -/
def joinPath (a b : String) : String :=
  if strStarts b "/" then b
  else if a = "" then b
  else if strEnds a "/" then a ++ b
  else a ++ "/" ++ b

/-- `os.path.basename`. -/
def basename (s : String) : String :=
  match splitLastOn '/' s.toList with
  | none => s
  | some (_, aft) => String.mk aft

/-- `str.lower()` (ASCII). -/
def lowerStr (s : String) : String := String.mk (s.toList.map Char.toLower)

/-- The `ignore_extensions` list of `rename_entity`. -/
def ignore_extensions : List String :=
  [".vob", ".info", ".nfo", ".ifo", ".bup", ".log", ".py"]

/-- The fallback-year scan over a directory's children: skip hidden names,
return the first four-digit window found in any other child name. -/
def findYearFromChildren : List String → Option String
  | [] => none
  | f :: r =>
    if strStarts f "." then findYearFromChildren r
    else
      match firstWindow f.toList with
      | some y => some (String.mk y)
      | none => findYearFromChildren r

/-- What `rename_entity` decides to do before the dry-run split: skip with
a particular log line, do nothing because the paths already agree, or
rename to a new basename. -/
inductive Decision where
  | skip (l : Log)
  | noop
  | rename (newName : String)
deriving DecidableEq, Repr

/-- The decision logic of `rename_entity` (everything up to the point
where `dry_run` is consulted); `listing` is what `os.listdir` returns for
a directory entity. -/
def rename_decision (rootPath entity : String) (ignoredDirs : List String)
    (is_file : Bool) (listing : List String) : Decision :=
  if strStarts entity "." then .skip (.skipHidden entity)
  else if ignoredDirs.contains (basename rootPath) then .skip (.skipIgnoredDir rootPath)
  else if ignore_extensions.contains (lowerStr (String.mk (splitext entity.toList).2)) then
    .skip (.skipExt entity)
  else if strStarts entity "._" then .skip (.skipShadow entity)
  else if joinPath rootPath entity
      ≠ joinPath rootPath (format_name entity is_file
        (if is_file then none else findYearFromChildren listing))
    then .rename (format_name entity is_file
      (if is_file then none else findYearFromChildren listing))
  else .noop

/-- A filesystem entry: a file, or a directory with its children in
listing order. -/
inductive FSEntry where
  | file (name : String)
  | dir (name : String) (children : List FSEntry)

def FSEntry.name : FSEntry → String
  | .file n => n
  | .dir n _ => n

/-- Rename the entry named `old` to `new` within one listing (the target
name must be free, the source must exist). -/
def renameEntry1 : List FSEntry → String → String → Option (List FSEntry)
  | [], _, _ => none
  | FSEntry.file n :: r, old, new =>
    if n = old then some (FSEntry.file new :: r)
    else (renameEntry1 r old new).map (FSEntry.file n :: ·)
  | FSEntry.dir n cs :: r, old, new =>
    if n = old then some (FSEntry.dir new cs :: r)
    else (renameEntry1 r old new).map (FSEntry.dir n cs :: ·)

/-- `os.rename` within one directory listing. -/
def renameChild (es : List FSEntry) (old new : String) : Option (List FSEntry) :=
  if (es.map FSEntry.name).contains new then none else renameEntry1 es old new

/-- Find the first subdirectory named `n` and return its children. -/
def findDir : List FSEntry → String → Option (List FSEntry)
  | [], _ => none
  | FSEntry.file _ :: r, n => findDir r n
  | FSEntry.dir m cs :: r, n => if m = n then some cs else findDir r n

/-- The listing of the directory at `path` (relative to the walk root),
`none` when no such directory exists. -/
def getDir : List FSEntry → List String → Option (List FSEntry)
  | es, [] => some es
  | es, p :: ps =>
    match findDir es p with
    | some cs => getDir cs ps
    | none => none

/-- `os.listdir` at `path`: the child names in listing order ( `[]` when
the directory is missing; the walk only lists directories it found). -/
def childNames (fs : List FSEntry) (path : List String) : List String :=
  match getDir fs path with
  | some es => es.map FSEntry.name
  | none => []

/-- Replace the listing of the directory at `path` (directory names are
unique within a real directory, so updating every branch of that name
coincides with updating the one `getDir` reads). -/
def setDir : List String → List FSEntry → List FSEntry → List FSEntry
  | [], _, newCs => newCs
  | p :: ps, es, newCs =>
    es.map (fun e =>
      match e with
      | .dir m cs => if m = p then .dir m (setDir ps cs newCs) else .dir m cs
      | .file n => .file n)

/-- `os.rename (path/old) (path/new)` on the tree.  -/
def applyRename (fs : List FSEntry) (path : List String) (old new : String) :
    Option (List FSEntry) :=
  match getDir fs path with
  | none => none
  | some cs => (renameChild cs old new).map (fun cs2 => setDir path fs cs2)

/-- Names of the plain files in a listing, in order. -/
def fileNamesOf (es : List FSEntry) : List String :=
  es.filterMap (fun e => match e with | .file n => some n | .dir _ _ => none)

/-- Names of the subdirectories in a listing, in order. -/
def dirNamesOf (es : List FSEntry) : List String :=
  es.filterMap (fun e => match e with | .dir n _ => some n | .file _ => none)

/-- One `rename_entity` call: given the current tree, the parent path
(as components and as the string the code manipulates), the flag and the
entity, produce the log lines, the new tree and the renames performed. -/
def rename_entity (dry_run : Bool) (ignoredDirs : List String)
    (fs : List FSEntry) (path : List String) (pathStr : String)
    (is_file : Bool) (entity : String) :
    List Log × List FSEntry × List (String × String) :=
  let listing := if is_file then [] else childNames fs (path ++ [entity])
  match rename_decision pathStr entity ignoredDirs is_file listing with
  | .skip l => ([l], fs, [])
  | .noop => ([Log.noop (joinPath pathStr entity)], fs, [])
  | .rename newName =>
    let src := joinPath pathStr entity
    let dst := joinPath pathStr newName
    if dry_run then ([Log.dryRun src dst], fs, [])
    else
      match applyRename fs path entity newName with
      | some fs2 => ([Log.renamed src dst], fs2, [(src, dst)])
      | none => ([Log.renameError src dst], fs, [])

/-- Process a list of entities at one level, threading the tree. -/
def processList (dry_run : Bool) (ignoredDirs : List String)
    (path : List String) (pathStr : String) (is_file : Bool) :
    List String → List FSEntry → List Log × List FSEntry × List (String × String)
  | [], fs => ([], fs, [])
  | e :: r, fs =>
    let s := rename_entity dry_run ignoredDirs fs path pathStr is_file e
    let t := processList dry_run ignoredDirs path pathStr is_file r s.2.1
    (s.1 ++ t.1, t.2.1, s.2.2 ++ t.2.2)

/-- The non-hidden files of a listing (processed at this level). -/
def levelFiles (es : List FSEntry) : List String :=
  (fileNamesOf es).filter (fun f => !strStarts f ".")

/-- The subdirectories kept for processing and descent: not hidden, not in
the ignore set. -/
def levelDirs (es : List FSEntry) (ignoredDirs : List String) : List String :=
  (dirNamesOf es).filter (fun d => !strStarts d "." && !ignoredDirs.contains d)

/-- `walk_directory`: top-down `os.walk` with the source's filtering, the
files of a level processed before its directories, then descent into each
surviving directory name computed at yield time (if a rename moved it, the
lookup fails and the subtree is skipped silently).  The fuel bounds the
descent depth; any fuel at least the tree height is enough. -/
def walk_directory (dry_run : Bool) (ignoredDirs : List String) :
    Nat → List FSEntry → List String → String →
    List Log × List FSEntry × List (String × String)
  | 0, fs, _, _ => ([], fs, [])
  | fuel + 1, fs, path, pathStr =>
    match getDir fs path with
    | none => ([], fs, [])
    | some es =>
      let files := levelFiles es
      let dirs := levelDirs es ignoredDirs
      let a := processList dry_run ignoredDirs path pathStr true files fs
      let b := processList dry_run ignoredDirs path pathStr false dirs a.2.1
      dirs.foldl
        (fun acc d =>
          let w := walk_directory dry_run ignoredDirs fuel acc.2.1
            (path ++ [d]) (joinPath pathStr d)
          (acc.1 ++ w.1, w.2.1, acc.2.2 ++ w.2.2))
        (a.1 ++ b.1, b.2.1, a.2.2 ++ b.2.2)

/-- The dry-run log lines that announce an intended rename. -/
def intendedRenames (logs : List Log) : List (String × String) :=
  logs.filterMap (fun l =>
    match l with
    | .dryRun s d => some (s, d)
    | _ => none)

/-- The error log lines of failed renames (attempted but not applied). -/
def failedRenames (logs : List Log) : List (String × String) :=
  logs.filterMap (fun l =>
    match l with
    | .renameError s d => some (s, d)
    | _ => none)

/-! ### A pure view of the traversal

For the ordering claim about `walk_directory` we also record, on an
unchanging tree (the dry-run situation, where nothing mutates), the bare
sequence of `rename_entity` invocations: parent path, entity, file flag.
This is lines 101–108 of the source with the processing abstracted away. -/

/-- The sequence of `(parent path, entity, is_file)` calls the walk makes
on a static tree. -/
def walkCalls (ignoredDirs : List String) :
    Nat → List FSEntry → List String → List (List String × String × Bool)
  | 0, _, _ => []
  | fuel + 1, fs, path =>
    match getDir fs path with
    | none => []
    | some es =>
      (levelFiles es).map (fun f => (path, f, true))
        ++ (levelDirs es ignoredDirs).map (fun d => (path, d, false))
        ++ (levelDirs es ignoredDirs).flatMap
            (fun d => walkCalls ignoredDirs fuel fs (path ++ [d]))

/-- The `rename_entity` calls `walk_directory` makes at one directory
level, files first, then directories, in listing order. -/
def levelCallsAt (ignoredDirs : List String) (fs : List FSEntry)
    (path : List String) : List (List String × String × Bool) :=
  match getDir fs path with
  | none => []
  | some es =>
    (levelFiles es).map (fun f => (path, f, true))
      ++ (levelDirs es ignoredDirs).map (fun d => (path, d, false))

/-! ## Helper lemmas -/

theorem strMk_toList (s : String) : String.mk s.toList = s := rfl

theorem splitLastOn_eq_none (ch : Char) :
    ∀ s : List Char, s.all (fun c => c ≠ ch) = true → splitLastOn ch s = none := by
  intro s
  induction s with
  | nil => intro _; rfl
  | cons c r ih =>
    intro h
    simp only [List.all_cons, Bool.and_eq_true, decide_eq_true_eq] at h
    simp only [splitLastOn, ih h.2]
    simp [h.1]

theorem splitLastOn_append (ch : Char) (u : List Char)
    (hu : u.all (fun c => c ≠ ch) = true) :
    ∀ a : List Char, splitLastOn ch (a ++ ch :: u) = some (a, u) := by
  intro a
  induction a with
  | nil =>
    simp only [List.nil_append, splitLastOn, splitLastOn_eq_none ch u hu]
    simp
  | cons c r ih =>
    simp only [List.cons_append, splitLastOn, List.append_eq, ih]

theorem splitLastOn_none_all (ch : Char) :
    ∀ t : List Char, splitLastOn ch t = none → t.all (fun c => c ≠ ch) = true := by
  intro t
  induction t with
  | nil => intro _; rfl
  | cons x xs ihx =>
    intro hx
    simp only [splitLastOn] at hx
    cases hxs : splitLastOn ch xs with
    | some p => rw [hxs] at hx; cases hx
    | none =>
      rw [hxs] at hx
      by_cases hxc : x = ch
      · rw [if_pos hxc] at hx; cases hx
      · have h2 := ihx hxs
        simp only [List.all_cons, Bool.and_eq_true]
        exact ⟨by simp [hxc], h2⟩

theorem splitLastOn_spec (ch : Char) :
    ∀ (s st ex : List Char), splitLastOn ch s = some (st, ex) →
      s = st ++ ch :: ex ∧ ex.all (fun c => c ≠ ch) = true := by
  intro s
  induction s with
  | nil => intro st ex h; simp [splitLastOn] at h
  | cons c r ih =>
    intro st ex h
    simp only [splitLastOn] at h
    cases hr : splitLastOn ch r with
    | some p =>
      rw [hr] at h
      obtain ⟨a, b⟩ := p
      simp only [Option.some.injEq, Prod.mk.injEq] at h
      obtain ⟨h3, h4⟩ := h
      subst h3; subst h4
      obtain ⟨h1, h2⟩ := ih a b hr
      exact ⟨by simp [h1], h2⟩
    | none =>
      rw [hr] at h
      by_cases hc : c = ch
      · rw [if_pos hc] at h
        simp only [Option.some.injEq, Prod.mk.injEq] at h
        obtain ⟨h3, h4⟩ := h
        subst h3; subst h4
        exact ⟨by simp [hc], splitLastOn_none_all ch r hr⟩
      · rw [if_neg hc] at h; cases h

theorem splitext_no_dot (s : List Char) (h : s.all (fun c => c ≠ '.') = true) :
    splitext s = (s, []) := by
  unfold splitext
  rw [splitLastOn_eq_none '.' s h]

theorem splitext_append (a u : List Char) (hu : u.all (fun c => c ≠ '.') = true)
    (ha : a.any (fun c => c ≠ '.') = true) :
    splitext (a ++ '.' :: u) = (a, '.' :: u) := by
  have ha2 : ∃ x ∈ a, ¬x = '.' := by simpa using ha
  simp [splitext, splitLastOn_append '.' u hu a, ha2]

theorem replaceAmp_no_amp (s : List Char) :
    (replaceAmp s).all (fun c => c ≠ '&') = true := by
  induction s with
  | nil => rfl
  | cons c r ih =>
    simp only [replaceAmp]
    by_cases hc : c = '&'
    · rw [if_pos hc]
      simp only [List.all_cons, Bool.and_eq_true]
      exact ⟨by decide, by decide, by decide, ih⟩
    · rw [if_neg hc]
      simp only [List.all_cons, Bool.and_eq_true]
      exact ⟨by simp [hc], ih⟩

theorem replaceAmp_of_no_amp (s : List Char) (h : s.all (fun c => c ≠ '&') = true) :
    replaceAmp s = s := by
  induction s with
  | nil => rfl
  | cons c r ih =>
    simp only [List.all_cons, Bool.and_eq_true, decide_eq_true_eq] at h
    simp [replaceAmp, h.1, ih h.2]

theorem replaceAmp_append (a b : List Char) :
    replaceAmp (a ++ b) = replaceAmp a ++ replaceAmp b := by
  induction a with
  | nil => rfl
  | cons c r ih =>
    simp only [List.cons_append, replaceAmp]
    by_cases hc : c = '&' <;> simp [hc, ih]

theorem wordspace_ne_dot (c : Char) (h : (wordChar c || spaceChar c) = true) :
    c ≠ '.' := by
  intro hc; subst hc; revert h; decide

theorem wordspace_ne_amp (c : Char) (h : (wordChar c || spaceChar c) = true) :
    c ≠ '&' := by
  intro hc; subst hc; revert h; decide

theorem digit_ne_dot (c : Char) (h : c.isDigit = true) : c ≠ '.' := by
  intro hc; subst hc; revert h; decide

theorem digit_ne_amp (c : Char) (h : c.isDigit = true) : c ≠ '&' := by
  intro hc; subst hc; revert h; decide

theorem list_length_four (l : List Char) (h : l.length = 4) :
    ∃ a b c d, l = [a, b, c, d] := by
  rcases l with _ | ⟨a, _ | ⟨b, _ | ⟨c, _ | ⟨d, _ | ⟨x, t⟩⟩⟩⟩⟩ <;> simp_all

theorem canonicalCore_intro (t : List Char) (d1 d2 d3 d4 : Char)
    (ht : t ≠ []) (htc : t.all (fun c => wordChar c || spaceChar c) = true)
    (h1 : d1.isDigit = true) (h2 : d2.isDigit = true)
    (h3 : d3.isDigit = true) (h4 : d4.isDigit = true) :
    canonicalCore (t ++ ' ' :: '(' :: d1 :: d2 :: d3 :: d4 :: [')']) = true := by
  have hrev : (t ++ ' ' :: '(' :: d1 :: d2 :: d3 :: d4 :: [')']).reverse
      = ')' :: d4 :: d3 :: d2 :: d1 :: '(' :: ' ' :: t.reverse := by
    simp
  have hallrev : t.reverse.all (fun c => wordChar c || spaceChar c) = true := by
    rw [List.all_eq_true] at htc ⊢
    intro x hx
    exact htc x (List.mem_reverse.mp hx)
  have hne : t.reverse.isEmpty = false := by
    simp [List.isEmpty_iff, ht]
  simp only [canonicalCore, hrev, h1, h2, h3, h4, hallrev, hne]
  rfl

/-! ## The claims -/

/-- C1.  The claim: whenever the cleaned string contains a run of exactly
four digits, `format_name` treats the first such run as the year and
discards everything from it onward, returning only the preceding text plus
the year in parentheses.  The code disagrees: `re.search` does pick the
first four-digit window as the year, but the truncation
`re.sub(r'(.*)\d{4}.*', r'\1', name)` has a greedy `(.*)`, so it truncates
at the *last* four-digit window.  On the directory name `"A.1999.B.2005"`
the claim predicts `"A (1999)"`; the code keeps the text up to `2005` and
returns `"A 1999 B (1999)"`.  This theorem evaluates the embedded code at
that failing input. -/
theorem c1_first_run_truncation_fails :
    format_name "A.1999.B.2005" false none = "A 1999 B (1999)" ∧
      format_name "A.1999.B.2005" false none ≠ "A (1999)" :=
  ⟨by decide, by decide⟩

/-- C2.  The claim: `format_name "Movie.Title.2019.1080p.BluRay.x264-GROUP.mkv"`
with the file flag returns `"Movie Title (2019).mkv"`.  The code instead
returns `"Movie Title 2019 (2019).mkv"`: `1080p` is not removed (only the
bracketed form `[1080p]` is in the catalog), so a second four-digit window
`1080` survives, and the greedy truncation cuts at that later window,
leaving `2019` inside the title.  This theorem evaluates the embedded code
at the spec's own example input. -/
theorem c2_spec_example_fails :
    format_name "Movie.Title.2019.1080p.BluRay.x264-GROUP.mkv" true none
        = "Movie Title 2019 (2019).mkv" ∧
      format_name "Movie.Title.2019.1080p.BluRay.x264-GROUP.mkv" true none
        ≠ "Movie Title (2019).mkv" :=
  ⟨by decide, by decide⟩

/-- C3.  The claim: any input containing a catalog release-tag substring
yields an output containing none of them.  The code disagrees for every
dot-delimited pattern of the catalog (`.AC3.`, `.EAC3.`, `.AAC.`, `.MP3.`,
`.AVC.`, `.HDR.`, `.S<d>E<d>.`, and the dotted bracket tags `[5.1]`,
`[YTS.MX]`): the separator collapse `re.sub(r'[\._-]+', ' ', ...)` runs
first and replaces every dot by a space, so those patterns can never match
and the bare tag text survives.  On `"Movie.AC3.2019.mkv"` (which contains
the catalog audio marker `.AC3.`) the output still contains `AC3`.  This
theorem evaluates the embedded code at that failing input. -/
theorem c3_audio_marker_survives :
    format_name "Movie.AC3.2019.mkv" true none = "Movie AC3 (2019).mkv" ∧
      containsSeq "AC3".toList (format_name "Movie.AC3.2019.mkv" true none).toList
        = true :=
  ⟨by decide, by decide⟩

/-- The short-circuit branch of `format_name`, file case: when the
ampersand-replaced stem is a fixed point of the replacement, splits as
expected and matches the canonical pattern, the input comes back whole. -/
theorem formatNameL_shortcircuit_file (S E : List Char) (yff : Option (List Char))
    (hrepl : replaceAmp S = S) (hsplit : splitext (S ++ E) = (S, E))
    (hsplitS : splitext S = (S, [])) (hcan : canonicalMatch S = true) :
    formatNameL (S ++ E) true yff = S ++ E := by
  unfold formatNameL formatAfterSplit
  simp only [if_true, hsplit, hrepl, hsplitS, hcan]

/-- The short-circuit branch of `format_name`, directory case. -/
theorem formatNameL_shortcircuit_dir (S : List Char) (yff : Option (List Char))
    (hrepl : replaceAmp S = S) (hsplitS : splitext S = (S, []))
    (hcan : canonicalMatch S = true) :
    formatNameL S false yff = S := by
  unfold formatNameL formatAfterSplit
  simp only [Bool.false_eq_true, if_false, hrepl, hsplitS, hcan]
  simp

/-- C4.  Idempotence on canonical names: a name of the shape
`Title (YYYY)` — `Title` a nonempty block of word/space characters, `YYYY`
four digits — with a well-formed extension reattached when it is a file,
is returned unchanged by `format_name` via the short-circuit pattern
check, whatever fallback year is supplied. -/
theorem c4_canonical_idempotent (t y e : String) (is_file : Bool)
    (yff : Option String)
    (ht : t.toList ≠ [])
    (htc : t.toList.all (fun c => wordChar c || spaceChar c) = true)
    (hylen : y.toList.length = 4)
    (hyd : y.toList.all Char.isDigit = true)
    (he : validExt e.toList = true)
    (hde : is_file = false → e = "") :
    format_name (t ++ " (" ++ y ++ ")" ++ e) is_file yff
      = t ++ " (" ++ y ++ ")" ++ e := by
  obtain ⟨d1, d2, d3, d4, hy4⟩ := list_length_four y.toList hylen
  have hd : d1.isDigit = true ∧ d2.isDigit = true ∧ d3.isDigit = true ∧
      d4.isDigit = true := by
    rw [hy4] at hyd
    simp only [List.all_cons, Bool.and_eq_true, List.all_nil] at hyd
    exact ⟨hyd.1, hyd.2.1, hyd.2.2.1, hyd.2.2.2.1⟩
  have hall : ∀ p : Char → Bool,
      (∀ c, (wordChar c || spaceChar c) = true → p c = true) →
      (∀ c, c.isDigit = true → p c = true) →
      p ' ' = true → p '(' = true → p ')' = true →
      (t.toList ++ ' ' :: '(' :: d1 :: d2 :: d3 :: d4 :: [')']).all p = true := by
    intro p hw hdg hsp hop hcl
    rw [List.all_append]
    have h1 : t.toList.all p = true := by
      rw [List.all_eq_true]
      intro x hx
      exact hw x ((List.all_eq_true.mp htc) x hx)
    rw [h1, Bool.true_and]
    simp [List.all_cons, hsp, hop, hcl,
      hdg d1 hd.1, hdg d2 hd.2.1, hdg d3 hd.2.2.1, hdg d4 hd.2.2.2]
  have hSnoamp : (t.toList ++ ' ' :: '(' :: d1 :: d2 :: d3 :: d4 :: [')']).all
      (fun c => c ≠ '&') = true := by
    refine hall _ ?_ ?_ (by decide) (by decide) (by decide)
    · intro c h; simpa using wordspace_ne_amp c h
    · intro c h; simpa using digit_ne_amp c h
  have hSnodot : (t.toList ++ ' ' :: '(' :: d1 :: d2 :: d3 :: d4 :: [')']).all
      (fun c => c ≠ '.') = true := by
    refine hall _ ?_ ?_ (by decide) (by decide) (by decide)
    · intro c h; simpa using wordspace_ne_dot c h
    · intro c h; simpa using digit_ne_dot c h
  have hrepl := replaceAmp_of_no_amp _ hSnoamp
  have hsplitS := splitext_no_dot _ hSnodot
  have hcan : canonicalMatch
      (t.toList ++ ' ' :: '(' :: d1 :: d2 :: d3 :: d4 :: [')']) = true := by
    unfold canonicalMatch
    rw [canonicalCore_intro t.toList d1 d2 d3 d4 ht htc
      hd.1 hd.2.1 hd.2.2.1 hd.2.2.2]
    rfl
  cases is_file with
  | false =>
    have he0 : e = "" := hde rfl
    subst he0
    have hX : (t ++ " (" ++ y ++ ")" ++ "").toList
        = t.toList ++ ' ' :: '(' :: d1 :: d2 :: d3 :: d4 :: [')'] := by
      simp only [String.toList] at hy4 ⊢
      simp [String.data_append, hy4]
    have := formatNameL_shortcircuit_dir _ (yff.map String.toList) hrepl hsplitS hcan
    unfold format_name
    rw [hX, this, ← hX, strMk_toList]
  | true =>
    have hX : (t ++ " (" ++ y ++ ")" ++ e).toList
        = (t.toList ++ ' ' :: '(' :: d1 :: d2 :: d3 :: d4 :: [')']) ++ e.toList := by
      simp only [String.toList] at hy4 ⊢
      simp [String.data_append, hy4]
    have hsplit : splitext
        ((t.toList ++ ' ' :: '(' :: d1 :: d2 :: d3 :: d4 :: [')']) ++ e.toList)
        = (t.toList ++ ' ' :: '(' :: d1 :: d2 :: d3 :: d4 :: [')'], e.toList) := by
      cases hE : e.toList with
      | nil => simpa [String.toList] using hsplitS
      | cons c u =>
        rw [hE] at he
        simp only [validExt, Bool.and_eq_true, decide_eq_true_eq] at he
        obtain ⟨rfl, hu⟩ := he
        refine splitext_append _ u ?_ ?_
        · simpa using hu
        · rw [List.any_eq_true]
          refine ⟨'(', ?_, by decide⟩
          simp
    have := formatNameL_shortcircuit_file _ e.toList (yff.map String.toList)
      hrepl hsplit hsplitS hcan
    unfold format_name
    rw [hX, this, ← hX, strMk_toList]

/-- C4 witness: the spec's canonical example file name. -/
theorem c4_canonical_idempotent_witness :
    format_name ("Movie Title" ++ " (" ++ "2019" ++ ")" ++ ".mkv") true none
      = "Movie Title" ++ " (" ++ "2019" ++ ")" ++ ".mkv" :=
  c4_canonical_idempotent "Movie Title" "2019" ".mkv" true none
    (by decide) (by decide) (by decide) (by decide) (by decide)
    (fun h => by cases h)

/-- C8.  Any entity whose basename starts with a dot is skipped by the very
first check of `rename_entity`, in dry-run and live mode alike: the tree is
untouched, nothing is renamed, and the single log line is the info-level
hidden-entity skip. -/
theorem c8_hidden_entities_skipped (dry_run : Bool) (ignoredDirs : List String)
    (fs : List FSEntry) (path : List String) (pathStr : String) (is_file : Bool)
    (entity : String) (h : strStarts entity "." = true) :
    rename_entity dry_run ignoredDirs fs path pathStr is_file entity
        = ([Log.skipHidden entity], fs, []) ∧
      Log.level (Log.skipHidden entity) = Level.info := by
  have hdec : ∀ listing, rename_decision pathStr entity ignoredDirs is_file listing
      = Decision.skip (Log.skipHidden entity) := by
    intro listing
    simp [rename_decision, h]
  refine ⟨?_, rfl⟩
  simp [rename_entity, hdec]

/-- C8 witness: the spec's own example `".hidden.mkv"`, in both modes. -/
theorem c8_hidden_entities_skipped_witness :
    rename_entity true ["x"] [] [] "root" true ".hidden.mkv"
        = ([Log.skipHidden ".hidden.mkv"], [], []) ∧
      rename_entity false ["x"] [] [] "root" true ".hidden.mkv"
        = ([Log.skipHidden ".hidden.mkv"], [], []) :=
  ⟨(c8_hidden_entities_skipped true ["x"] [] [] "root" true ".hidden.mkv" (by decide)).1,
   (c8_hidden_entities_skipped false ["x"] [] [] "root" true ".hidden.mkv" (by decide)).1⟩

/-- C10.  The ignored-extension check of `rename_entity` never consults the
file/directory flag: a directory whose basename carries an ignored
extension (in the sense of `os.path.splitext`, lower-cased — for a
non-hidden name this is exactly "ends, case-insensitively, in one of the
listed extensions") is skipped with the ignored-extension log line, with no
rename and no tree change, and the decision is literally the one taken for
a file of the same name. -/
theorem c10_extension_skip_ignores_flag (pathStr entity : String)
    (ignoredDirs : List String) (listing listing2 : List String)
    (h1 : strStarts entity "." = false)
    (h2 : ignoredDirs.contains (basename pathStr) = false)
    (h3 : ignore_extensions.contains (lowerStr (String.mk (splitext entity.toList).2))
        = true) :
    rename_decision pathStr entity ignoredDirs false listing
        = Decision.skip (Log.skipExt entity) ∧
      rename_decision pathStr entity ignoredDirs false listing
        = rename_decision pathStr entity ignoredDirs true listing2 ∧
      ∀ (dry_run : Bool) (fs : List FSEntry) (path : List String),
        rename_entity dry_run ignoredDirs fs path pathStr false entity
          = ([Log.skipExt entity], fs, []) := by
  have hdec : ∀ (b : Bool) (l : List String),
      rename_decision pathStr entity ignoredDirs b l = Decision.skip (Log.skipExt entity) := by
    intro b l
    have h2b : basename pathStr ∉ ignoredDirs := by simpa using h2
    have h3b : lowerStr (String.mk (splitext entity.data).2) ∈ ignore_extensions := by
      simpa [String.toList] using h3
    simp [rename_decision, h1, h2b, h3b]
  refine ⟨hdec false listing, by rw [hdec false listing, hdec true listing2], ?_⟩
  intro dry fs path
  simp [rename_entity, hdec]

/-- C10 witness: the directory `"Backups.log"` under an untouched root. -/
theorem c10_extension_skip_ignores_flag_witness :
    rename_decision "root" "Backups.log" [] false []
        = Decision.skip (Log.skipExt "Backups.log") ∧
      rename_entity false [] [] [] "root" false "Backups.log"
        = ([Log.skipExt "Backups.log"], [], []) := by
  have h := c10_extension_skip_ignores_flag "root" "Backups.log" [] [] []
    (by decide) (by decide) (by decide)
  exact ⟨h.1, h.2.2 false [] []⟩

theorem all_dropWhile (p q : Char → Bool) (s : List Char) (h : s.all p = true) :
    (s.dropWhile q).all p = true := by
  induction s with
  | nil => rfl
  | cons c r ih =>
    simp only [List.all_cons, Bool.and_eq_true] at h
    simp only [List.dropWhile]
    cases hq : q c with
    | true => exact ih h.2
    | false => simp [List.all_cons, h.1, h.2]

theorem all_reverse_eq (p : Char → Bool) (s : List Char) :
    s.reverse.all p = s.all p := by
  induction s with
  | nil => rfl
  | cons c r ih =>
    simp [List.all_append, List.all_cons, ih, Bool.and_comm]

theorem dropTrailingWhile_all (p q : Char → Bool) (s : List Char)
    (h : s.all p = true) : (dropTrailingWhile q s).all p = true := by
  unfold dropTrailingWhile
  rw [all_reverse_eq]
  apply all_dropWhile
  rw [all_reverse_eq]
  exact h

theorem stripWs_all (p : Char → Bool) (s : List Char) (h : s.all p = true) :
    (stripWs s).all p = true :=
  dropTrailingWhile_all p spaceChar _ (all_dropWhile p spaceChar s h)

theorem collapseRunsAux_all (p cls : Char → Bool) (rep : Char)
    (hrep : p rep = true) :
    ∀ (b : Bool) (s : List Char), s.all p = true →
      (collapseRunsAux cls rep b s).all p = true := by
  intro b s
  induction s generalizing b with
  | nil => intro _; rfl
  | cons c r ih =>
    intro h
    simp only [List.all_cons, Bool.and_eq_true] at h
    simp only [collapseRunsAux]
    cases hc : cls c with
    | true =>
      cases b with
      | true => simpa using ih true h.2
      | false => simp [List.all_cons, hrep, ih true h.2]
    | false => simp [List.all_cons, h.1, ih false h.2]

theorem collapseRunsAux_all_of_kept (p cls : Char → Bool) (rep : Char)
    (hrep : p rep = true) (hkeep : ∀ c, cls c = false → p c = true) :
    ∀ (b : Bool) (s : List Char), (collapseRunsAux cls rep b s).all p = true := by
  intro b s
  induction s generalizing b with
  | nil => rfl
  | cons c r ih =>
    simp only [collapseRunsAux]
    cases hc : cls c with
    | true =>
      cases b with
      | true => simpa using ih true
      | false => simp [List.all_cons, hrep, ih true]
    | false => simp [List.all_cons, hkeep c hc, ih false]

theorem collapseSeps_no_dot (s : List Char) :
    (collapseSeps s).all (fun c => c ≠ '.') = true := by
  refine collapseRunsAux_all_of_kept _ sepChar ' ' (by decide) ?_ false s
  intro c hc
  simp only [decide_eq_true_eq]
  intro h
  subst h
  simp [sepChar] at hc

theorem drop_all (p : Char → Bool) (n : Nat) (s : List Char)
    (h : s.all p = true) : (s.drop n).all p = true := by
  rw [List.all_eq_true] at h ⊢
  intro x hx
  exact h x (List.mem_of_mem_drop hx)

theorem removeMatchesF_all (m : Matcher) (p : Char → Bool) :
    ∀ (f : Nat) (s : List Char), s.all p = true →
      (removeMatchesF m f s).all p = true := by
  intro f
  induction f with
  | zero => intro s h; exact h
  | succ f ih =>
    intro s h
    cases s with
    | nil => simp [removeMatchesF]
    | cons c r =>
      simp only [List.all_cons, Bool.and_eq_true] at h
      simp only [removeMatchesF]
      cases hm : m (c :: r) with
      | some n => exact ih _ (drop_all p (n - 1) r h.2)
      | none => simp [List.all_cons, h.1, ih r h.2]

theorem removeMatches_all (m : Matcher) (p : Char → Bool) (s : List Char)
    (h : s.all p = true) : (removeMatches m s).all p = true :=
  removeMatchesF_all m p s.length s h

theorem foldl_removeMatches_all (p : Char → Bool) :
    ∀ (ms : List Matcher) (s : List Char), s.all p = true →
      (ms.foldl (fun n m => removeMatches m n) s).all p = true := by
  intro ms
  induction ms with
  | nil => intro s h; exact h
  | cons m t ih =>
    intro s h
    exact ih _ (removeMatches_all m p s h)

theorem splitLines_ne_nil (s : List Char) : splitLines s ≠ [] := by
  cases s with
  | nil => simp [splitLines]
  | cons c r =>
    simp only [splitLines]
    by_cases hc : c = '\n'
    · simp [hc]
    · rw [if_neg hc]
      cases hsp : splitLines r with
      | nil => simp
      | cons a t => simp

theorem splitLines_all (p : Char → Bool) :
    ∀ s : List Char, s.all p = true →
      ∀ l ∈ splitLines s, l.all p = true := by
  intro s
  induction s with
  | nil =>
    intro _ l hl
    simp only [splitLines, List.mem_singleton] at hl
    subst hl; rfl
  | cons c r ih =>
    intro h l hl
    simp only [List.all_cons, Bool.and_eq_true] at h
    simp only [splitLines] at hl
    by_cases hc : c = '\n'
    · rw [if_pos hc] at hl
      rcases List.mem_cons.mp hl with h1 | h1
      · subst h1; rfl
      · exact ih h.2 l h1
    · rw [if_neg hc] at hl
      cases hsp : splitLines r with
      | nil => exact absurd hsp (splitLines_ne_nil r)
      | cons a t =>
        rw [hsp] at hl
        rcases List.mem_cons.mp hl with h1 | h1
        · subst h1
          have ha : a.all p = true := ih h.2 a (by rw [hsp]; exact List.mem_cons_self a t)
          simp [List.all_cons, h.1, ha]
        · exact ih h.2 l (by rw [hsp]; exact List.mem_cons_of_mem a h1)

theorem take_all (p : Char → Bool) (n : Nat) (s : List Char)
    (h : s.all p = true) : (s.take n).all p = true := by
  rw [List.all_eq_true] at h ⊢
  intro x hx
  exact h x (List.mem_of_mem_take hx)

theorem truncLine_all (p : Char → Bool) (s : List Char) (h : s.all p = true) :
    (truncLine s).all p = true := by
  unfold truncLine
  cases lastWindowStart s with
  | some i => exact take_all p i s h
  | none => exact h

theorem joinLines_all (p : Char → Bool) (hnl : p '\n' = true) :
    ∀ ls : List (List Char), (∀ l ∈ ls, l.all p = true) →
      (joinLines ls).all p = true := by
  intro ls
  induction ls with
  | nil => intro _; rfl
  | cons l t ih =>
    intro h
    cases t with
    | nil => simpa [joinLines] using h l (List.mem_singleton.mpr rfl)
    | cons r t2 =>
      simp only [joinLines, List.all_append, List.all_cons, Bool.and_eq_true]
      refine ⟨h l (List.mem_cons_self l _), hnl, ?_⟩
      exact ih (fun x hx => h x (List.mem_cons_of_mem l hx))

theorem truncAtYear_all (p : Char → Bool) (hnl : p '\n' = true) (s : List Char)
    (h : s.all p = true) : (truncAtYear s).all p = true := by
  unfold truncAtYear
  apply joinLines_all p hnl
  intro l hl
  rw [List.mem_map] at hl
  obtain ⟨seg, hseg, rfl⟩ := hl
  exact truncLine_all p seg (splitLines_all p s h seg hseg)

theorem firstWindow_digits :
    ∀ s y : List Char, firstWindow s = some y → y.all Char.isDigit = true := by
  intro s
  induction s with
  | nil => intro y h; simp [firstWindow] at h
  | cons c r ih =>
    intro y h
    simp only [firstWindow] at h
    cases hd : digits4At (c :: r) with
    | true =>
      rw [if_pos hd] at h
      injection h with h
      subst h
      rcases r with _ | ⟨b, _ | ⟨c2, _ | ⟨d, r3⟩⟩⟩
      · simp [digits4At] at hd
      · simp [digits4At] at hd
      · simp [digits4At] at hd
      · simp only [digits4At, Bool.and_eq_true] at hd
        obtain ⟨⟨⟨h1, h2⟩, h3⟩, h4⟩ := hd
        simp [List.take, List.all_cons, h1, h2, h3, h4]
    | false =>
      rw [if_neg (by simp [hd])] at h
      exact ih y h

theorem yearOf_all (p : Char → Bool) (name : List Char)
    (yffL : Option (List Char))
    (hdig : ∀ c, c.isDigit = true → p c = true)
    (hyff : (yffL.getD []).all p = true) :
    (yearOf name yffL).all p = true := by
  unfold yearOf
  cases hw : firstWindow name with
  | some yy =>
    have := firstWindow_digits name yy hw
    rw [List.all_eq_true] at this ⊢
    intro x hx
    exact hdig x (this x hx)
  | none => exact hyff

theorem assembled_all (p : Char → Bool) (name year : List Char)
    (hsp : p ' ' = true) (hop : p '(' = true) (hcl : p ')' = true)
    (hnl : p '\n' = true)
    (hname : name.all p = true) (hyear : year.all p = true) :
    (assembled name year).all p = true := by
  unfold assembled
  by_cases hY : year.isEmpty = true
  · rw [if_pos hY]
    exact removeMatches_all _ p _ hname
  · rw [if_neg hY]
    rw [List.all_append]
    have h2 : (stripWs (stripWs (truncAtYear name))).all p = true :=
      stripWs_all p _ (stripWs_all p _ (truncAtYear_all p hnl _ hname))
    simp only [h2, List.all_cons, List.all_append, Bool.and_eq_true, true_and]
    exact ⟨hsp, hop, hyear, by simp [hcl]⟩

theorem cleanStem_all (p : Char → Bool) (entity : List Char)
    (yffL : Option (List Char))
    (hsp : p ' ' = true) (hop : p '(' = true) (hcl : p ')' = true)
    (hnl : p '\n' = true)
    (hdig : ∀ c, c.isDigit = true → p c = true)
    (hyff : (yffL.getD []).all p = true)
    (hbase : (collapseSeps entity).all p = true) :
    (cleanStem entity yffL).all p = true := by
  unfold cleanStem
  have h1 : ((patterns_to_remove.foldl (fun n m => removeMatches m n)
      (collapseSeps entity))).all p = true :=
    foldl_removeMatches_all p patterns_to_remove _ hbase
  apply stripWs_all
  apply collapseRunsAux_all p spaceChar ' ' hsp
  apply stripWs_all
  apply dropTrailingWhile_all
  exact assembled_all p _ _ hsp hop hcl hnl h1
    (yearOf_all p _ yffL hdig hyff)

/-- C5's counterexample: the claim promises no ampersand survives anywhere
and the word `and` appears in its place.  A file extension is split off
before the replacement and reattached verbatim, so an ampersand there
survives; and the year truncation can delete the substituted `and`
entirely. -/
theorem c5_ampersand_cex :
    ('&' ∈ "a&b.c&d".toList) ∧
      ('&' ∈ (format_name "a&b.c&d" true none).toList) ∧
      ('&' ∈ "1999.A&B".toList) ∧
      format_name "1999.A&B" false none = "(1999)" :=
  ⟨by decide, by decide, by decide, by decide⟩

/-- C5 (amended).  Ampersand replacement happens on the stem, before any
other transformation: provided the reattached extension (for a file) and
the supplied fallback year contain no ampersand, the output of
`format_name` contains no ampersand; the substituted `and` may itself be
removed by later cleaning, so only the absence half survives in general. -/
theorem formatAfterSplit_no_amp (stem ext : List Char) (is_file : Bool)
    (yffL : Option (List Char))
    (hext : ext.all (fun c => c ≠ '&') = true)
    (hyffL : ((yffL.getD [])).all (fun c => c ≠ '&') = true) :
    (formatAfterSplit stem ext is_file yffL).all (fun c => c ≠ '&') = true := by
  have hcs : (cleanStem (replaceAmp stem) yffL).all (fun c => c ≠ '&') = true := by
    refine cleanStem_all _ _ _ (by decide) (by decide) (by decide) (by decide)
      ?_ hyffL ?_
    · intro c h
      simpa using digit_ne_amp c h
    · exact collapseRunsAux_all _ sepChar ' ' (by decide) false _
        (replaceAmp_no_amp _)
  unfold formatAfterSplit
  by_cases hc : canonicalMatch (splitext (replaceAmp stem)).1 = true
  · rw [if_pos hc, List.all_append, replaceAmp_no_amp stem, hext]
    rfl
  · rw [if_neg hc]
    cases is_file with
    | true =>
      rw [if_pos rfl, List.all_append, hcs, hext]
      rfl
    | false =>
      rw [if_neg (by simp)]
      exact hcs

theorem c5_amended_no_amp (s : String) (is_file : Bool) (yff : Option String)
    (hext : is_file = true → (splitext s.toList).2.all (fun c => c ≠ '&') = true)
    (hyff : (yff.getD "").toList.all (fun c => c ≠ '&') = true) :
    (format_name s is_file yff).toList.all (fun c => c ≠ '&') = true := by
  have hyffL : (((yff.map String.toList).getD [])).all (fun c => c ≠ '&') = true := by
    cases yff with
    | none => rfl
    | some y => simpa using hyff
  show (formatNameL s.toList is_file (yff.map String.toList)).all
    (fun c => c ≠ '&') = true
  unfold formatNameL
  cases is_file with
  | true =>
    rw [if_pos rfl]
    exact formatAfterSplit_no_amp _ _ true _ (hext rfl) hyffL
  | false =>
    rw [if_neg (by simp)]
    exact formatAfterSplit_no_amp _ [] false _ (by rfl) hyffL

/-- C5 witness: a file with an ampersand in the stem and none in the
extension. -/
theorem c5_amended_no_amp_witness :
    (format_name "Fast & Furious.2001.mkv" true none).toList.all
      (fun c => c ≠ '&') = true :=
  c5_amended_no_amp "Fast & Furious.2001.mkv" true none
    (fun _ => by decide) (by decide)

theorem replaceAmp_all_pres (p : Char → Bool)
    (ha : p 'a' = true) (hn : p 'n' = true) (hd : p 'd' = true) :
    ∀ s : List Char, s.all p = true → (replaceAmp s).all p = true := by
  intro s
  induction s with
  | nil => intro _; rfl
  | cons c r ih =>
    intro h
    simp only [List.all_cons, Bool.and_eq_true] at h
    simp only [replaceAmp]
    by_cases hc : c = '&'
    · rw [if_pos hc]
      simp only [List.all_cons, Bool.and_eq_true]
      exact ⟨ha, hn, hd, ih h.2⟩
    · rw [if_neg hc]
      simp only [List.all_cons, Bool.and_eq_true]
      exact ⟨h.1, ih h.2⟩

theorem canonicalCore_no_dot (s : List Char) (h : canonicalCore s = true) :
    s.all (fun c => c ≠ '.') = true := by
  unfold canonicalCore at h
  split at h
  case _ d4 d3 d2 d1 rest heq =>
    simp only [Bool.and_eq_true] at h
    obtain ⟨⟨⟨⟨⟨h1, h2⟩, h3⟩, h4⟩, _⟩, hrest⟩ := h
    rw [← all_reverse_eq, heq]
    simp only [List.all_cons, Bool.and_eq_true]
    refine ⟨by decide, ?_, ?_, ?_, ?_, by decide, by decide, ?_⟩
    · simpa using digit_ne_dot d4 h4
    · simpa using digit_ne_dot d3 h3
    · simpa using digit_ne_dot d2 h2
    · simpa using digit_ne_dot d1 h1
    · rw [List.all_eq_true] at hrest ⊢
      intro x hx
      simpa using wordspace_ne_dot x (hrest x hx)
  case _ => cases h

theorem canonicalMatch_no_dot (s : List Char) (h : canonicalMatch s = true) :
    s.all (fun c => c ≠ '.') = true := by
  unfold canonicalMatch at h
  rw [Bool.or_eq_true] at h
  rcases h with h | h
  · exact canonicalCore_no_dot s h
  · by_cases hl : s.getLast? = some '\n'
    · rw [if_pos hl] at h
      cases hrev : s.reverse with
      | nil =>
        have hnil : s = [] := by simpa using congrArg List.reverse hrev
        subst hnil
        simp at hl
      | cons c t =>
        have hs : s = t.reverse ++ [c] := by simpa using congrArg List.reverse hrev
        have hlast : s.getLast? = some c := by
          rw [hs]
          exact List.getLast?_concat _
        rw [hlast] at hl
        injection hl with hl
        subst hl
        have hdrop : s.dropLast = t.reverse := by
          rw [hs]
          exact List.dropLast_concat
        rw [hdrop] at h
        have hcore := canonicalCore_no_dot _ h
        rw [hs, List.all_append, hcore]
        simp
    · rw [if_neg hl] at h
      cases h

theorem cleanStem_no_dot (entity : List Char) (yffL : Option (List Char))
    (hyff : (yffL.getD []).all (fun c => c ≠ '.') = true) :
    (cleanStem entity yffL).all (fun c => c ≠ '.') = true := by
  refine cleanStem_all _ _ _ (by decide) (by decide) (by decide) (by decide)
    ?_ hyff (collapseSeps_no_dot entity)
  intro c h
  simpa using digit_ne_dot c h

theorem lastDotSuffix_no_dot (s : List Char)
    (h : s.all (fun c => c ≠ '.') = true) : lastDotSuffix s = [] := by
  unfold lastDotSuffix
  rw [splitLastOn_eq_none '.' s h]

theorem lastDotSuffix_concat (a u : List Char)
    (hu : u.all (fun c => c ≠ '.') = true) :
    lastDotSuffix (a ++ '.' :: u) = '.' :: u := by
  unfold lastDotSuffix
  rw [splitLastOn_append '.' u hu a]

/-- The `splitext` extension is always of the valid shape. -/
theorem splitext_validExt (s : List Char) : validExt (splitext s).2 = true := by
  cases hsp : splitLastOn '.' s with
  | none => simp [splitext, hsp, validExt]
  | some pair =>
    obtain ⟨st, ex⟩ := pair
    obtain ⟨_, hex⟩ := splitLastOn_spec '.' s st ex hsp
    by_cases hany : st.any (fun c => c ≠ '.') = true
    · simp only [splitext, hsp]
      rw [if_pos hany]
      simp only [validExt]
      exact (Bool.and_eq_true _ _).mpr ⟨by decide, hex⟩
    · simp only [splitext, hsp]
      rw [if_neg hany]
      simp [validExt]

/-- List-level core of C6, quantifier-free in strings. -/
theorem c6_core (L : List Char) :
    lastDotSuffix (formatNameL L true none) = (splitext L).2 := by
  unfold formatNameL
  rw [if_pos rfl]
  cases hsp : splitLastOn '.' L with
  | none =>
    have hLd : L.all (fun c => c ≠ '.') = true :=
      splitLastOn_none_all '.' L hsp
    have hse : splitext L = (L, []) := by
      unfold splitext
      rw [hsp]
    rw [hse]
    apply lastDotSuffix_no_dot
    unfold formatAfterSplit
    by_cases hc : canonicalMatch (splitext (replaceAmp L)).1 = true
    · rw [if_pos hc, List.all_append]
      rw [replaceAmp_all_pres _ (by decide) (by decide) (by decide) _ hLd]
      rfl
    · rw [if_neg hc, if_pos rfl, List.all_append,
        cleanStem_no_dot (replaceAmp L) none rfl]
      rfl
  | some pair =>
    obtain ⟨st, ex⟩ := pair
    obtain ⟨hsL, hexd⟩ := splitLastOn_spec '.' L st ex hsp
    by_cases hany : st.any (fun c => c ≠ '.') = true
    · have hse : splitext L = (st, '.' :: ex) := by
        simp only [splitext, hsp]
        rw [if_pos hany]
      rw [hse]
      unfold formatAfterSplit
      by_cases hc : canonicalMatch (splitext (replaceAmp st)).1 = true
      · rw [if_pos hc]
        exact lastDotSuffix_concat _ ex hexd
      · rw [if_neg hc, if_pos rfl]
        exact lastDotSuffix_concat _ ex hexd
    · have hse : splitext L = (L, []) := by
        simp only [splitext, hsp]
        rw [if_neg hany]
      rw [hse]
      -- every character of `st` is a dot, so the ampersand replacement
      -- fixes it, and the replaced whole still carries its dot
      have hstdots : st.all (fun c => c = '.') = true := by
        rw [List.all_eq_true]
        intro x hx
        by_contra hxne
        apply hany
        rw [List.any_eq_true]
        exact ⟨x, hx, by simpa using hxne⟩
      have hstamp : st.all (fun c => c ≠ '&') = true := by
        rw [List.all_eq_true] at hstdots ⊢
        intro x hx
        have h7 := hstdots x hx
        simp only [decide_eq_true_eq] at h7 ⊢
        simp [h7]
      have hrL : replaceAmp L = st ++ '.' :: replaceAmp ex := by
        rw [hsL, replaceAmp_append, replaceAmp_of_no_amp st hstamp]
        simp [replaceAmp]
      have hexd2 : (replaceAmp ex).all (fun c => c ≠ '.') = true :=
        replaceAmp_all_pres _ (by decide) (by decide) (by decide) ex hexd
      have hspR : splitLastOn '.' (replaceAmp L)
          = some (st, replaceAmp ex) := by
        rw [hrL]
        exact splitLastOn_append '.' _ hexd2 st
      have hseR : splitext (replaceAmp L) = (replaceAmp L, []) := by
        simp only [splitext, hspR]
        rw [if_neg hany]
      have hdotmem : '.' ∈ replaceAmp L := by
        rw [hrL]
        exact List.mem_append_right _ (List.mem_cons_self _ _)
      have hcanF : ¬ canonicalMatch (splitext (replaceAmp L)).1 = true := by
        rw [hseR]
        intro hc
        have h8 := canonicalMatch_no_dot _ hc
        rw [List.all_eq_true] at h8
        have h9 := h8 '.' hdotmem
        simp at h9
      unfold formatAfterSplit
      rw [if_neg hcanF, if_pos rfl]
      apply lastDotSuffix_no_dot
      rw [List.all_append, cleanStem_no_dot (replaceAmp L) none rfl]
      rfl

/-- C6.  Extension preservation, with each side read the way its source
reads it: the input's "original extension" is what the code splits off
with `os.path.splitext` (and reattaches verbatim), and the output's
extension is the claim's "final dot-delimited suffix".  For every file
input these agree exactly, unchanged in case.  (Reading *both* sides
through `splitext` would fail: `format_name "-.mkv" true` returns
`".mkv"`, whose `splitext` extension is empty.) -/
theorem c6_extension_preserved (s : String) :
    lastDotSuffix (format_name s true none).toList = (splitext s.toList).2 :=
  c6_core s.toList

theorem decision_ite_ne_skip (c : Prop) [Decidable c] (x : String) (l : Log) :
    (if c then Decision.rename x else Decision.noop) ≠ Decision.skip l := by
  intro h
  by_cases hc : c
  · rw [if_pos hc] at h
    cases h
  · rw [if_neg hc] at h
    cases h

theorem rename_decision_skip_inv (rootPath entity : String)
    (ignoredDirs : List String) (is_file : Bool) (listing : List String)
    (l : Log)
    (h : rename_decision rootPath entity ignoredDirs is_file listing
      = Decision.skip l) :
    l = Log.skipHidden entity ∨ l = Log.skipIgnoredDir rootPath ∨
      l = Log.skipExt entity ∨ l = Log.skipShadow entity := by
  unfold rename_decision at h
  split at h
  · injection h with h1
    exact Or.inl h1.symm
  · split at h
    · injection h with h1
      exact Or.inr (Or.inl h1.symm)
    · split at h
      · injection h with h1
        exact Or.inr (Or.inr (Or.inl h1.symm))
      · split at h
        · injection h with h1
          exact Or.inr (Or.inr (Or.inr h1.symm))
        · exact absurd h (decision_ite_ne_skip _ _ l)

theorem rename_entity_dry (ignoredDirs : List String) (fs : List FSEntry)
    (path : List String) (pathStr : String) (is_file : Bool) (entity : String) :
    (rename_entity true ignoredDirs fs path pathStr is_file entity).2.1 = fs ∧
      (rename_entity true ignoredDirs fs path pathStr is_file entity).2.2 = [] := by
  unfold rename_entity
  cases hdec : rename_decision pathStr entity ignoredDirs is_file
      (if is_file then [] else childNames fs (path ++ [entity])) with
  | skip l => simp [hdec]
  | noop => simp [hdec]
  | rename n => simp [hdec]

theorem rename_entity_dry_live (ignoredDirs : List String) (fs : List FSEntry)
    (path : List String) (pathStr : String) (is_file : Bool) (entity : String) :
    intendedRenames
        (rename_entity true ignoredDirs fs path pathStr is_file entity).1
      = (rename_entity false ignoredDirs fs path pathStr is_file entity).2.2
        ++ failedRenames
          (rename_entity false ignoredDirs fs path pathStr is_file entity).1 := by
  unfold rename_entity
  cases hdec : rename_decision pathStr entity ignoredDirs is_file
      (if is_file then [] else childNames fs (path ++ [entity])) with
  | skip l =>
    rcases rename_decision_skip_inv _ _ _ _ _ l hdec with h | h | h | h <;>
      subst h <;> simp [hdec, intendedRenames, failedRenames]
  | noop => simp [hdec, intendedRenames, failedRenames]
  | rename n =>
    cases hap : applyRename fs path entity n with
    | some fs2 => simp [hdec, hap, intendedRenames, failedRenames]
    | none => simp [hdec, hap, intendedRenames, failedRenames]

theorem processList_dry (ignoredDirs : List String) (path : List String)
    (pathStr : String) (is_file : Bool) :
    ∀ (es : List String) (fs : List FSEntry),
      (processList true ignoredDirs path pathStr is_file es fs).2.1 = fs ∧
        (processList true ignoredDirs path pathStr is_file es fs).2.2 = [] := by
  intro es
  induction es with
  | nil => intro fs; exact ⟨rfl, rfl⟩
  | cons e r ih =>
    intro fs
    have h1 := rename_entity_dry ignoredDirs fs path pathStr is_file e
    simp only [processList]
    rw [h1.1, h1.2]
    obtain ⟨ha, hb⟩ := ih fs
    rw [ha, hb]
    simp

theorem foldl_pres
    (g : List Log × List FSEntry × List (String × String) → String →
      List Log × List FSEntry × List (String × String))
    (hg : ∀ acc d, (g acc d).2.1 = acc.2.1 ∧ (g acc d).2.2 = acc.2.2) :
    ∀ (ds : List String) (acc : List Log × List FSEntry × List (String × String)),
      (ds.foldl g acc).2.1 = acc.2.1 ∧ (ds.foldl g acc).2.2 = acc.2.2 := by
  intro ds
  induction ds with
  | nil => intro acc; exact ⟨rfl, rfl⟩
  | cons d r ih =>
    intro acc
    simp only [List.foldl_cons]
    obtain ⟨h1, h2⟩ := ih (g acc d)
    rw [h1, h2]
    exact hg acc d

theorem walk_dry (ignoredDirs : List String) :
    ∀ (fuel : Nat) (fs : List FSEntry) (path : List String) (pathStr : String),
      (walk_directory true ignoredDirs fuel fs path pathStr).2.1 = fs ∧
        (walk_directory true ignoredDirs fuel fs path pathStr).2.2 = [] := by
  intro fuel
  induction fuel with
  | zero => intro fs path pathStr; exact ⟨rfl, rfl⟩
  | succ f ihf =>
    intro fs path pathStr
    unfold walk_directory
    cases hg : getDir fs path with
    | none => simp
    | some es =>
      simp only [hg]
      have ha := processList_dry ignoredDirs path pathStr true (levelFiles es) fs
      have hb := processList_dry ignoredDirs path pathStr false
        (levelDirs es ignoredDirs)
        (processList true ignoredDirs path pathStr true (levelFiles es) fs).2.1
      constructor
      · refine ((foldl_pres _ ?_ _ _).1).trans ?_
        · intro acc d
          refine ⟨(ihf _ _ _).1, ?_⟩
          rw [(ihf _ _ _).2]
          simp
        · exact hb.1.trans ha.1
      · refine ((foldl_pres _ ?_ _ _).2).trans ?_
        · intro acc d
          refine ⟨(ihf _ _ _).1, ?_⟩
          rw [(ihf _ _ _).2]
          simp
        · rw [ha.2, hb.2]
          rfl

/-- C7's counterexample: on a tree with a renamable directory holding a
renamable file, a dry run logs two intended renames but a live run applies
only one — the live run renames the directory and then cannot descend into
its old path (`os.walk` silently skips the vanished listing), so the file
inside is never processed. -/
theorem c7_dry_live_logs_differ :
    intendedRenames (walk_directory true [] 3
        [FSEntry.dir "A.2019" [FSEntry.file "m.2019.mkv"]] [] "root").1
      ≠ (walk_directory false [] 3
        [FSEntry.dir "A.2019" [FSEntry.file "m.2019.mkv"]] [] "root").2.2 := by
  decide

/-- C7 (amended).  The dry-run guarantee that survives: (a) a dry run
never mutates the tree and performs no rename, whatever the tree; and
(b) for each single entity in a given filesystem state, the dry run logs
exactly the rename the live run would attempt there — the one it performs,
or the one it fails on and logs as an error.  Whole-run log equality,
which the original claim asserted, fails on trees where a directory is
renamed (see the counterexample): the live run cannot descend into the
renamed directory's old path, while the dry run still walks it. -/
theorem c7_amended_dry_run :
    (∀ (fuel : Nat) (ignoredDirs : List String) (fs : List FSEntry)
        (path : List String) (pathStr : String),
      (walk_directory true ignoredDirs fuel fs path pathStr).2.1 = fs ∧
        (walk_directory true ignoredDirs fuel fs path pathStr).2.2 = []) ∧
    (∀ (ignoredDirs : List String) (fs : List FSEntry) (path : List String)
        (pathStr : String) (is_file : Bool) (entity : String),
      (rename_entity true ignoredDirs fs path pathStr is_file entity).2.1 = fs ∧
        (rename_entity true ignoredDirs fs path pathStr is_file entity).2.2 = [] ∧
        intendedRenames
            (rename_entity true ignoredDirs fs path pathStr is_file entity).1
          = (rename_entity false ignoredDirs fs path pathStr is_file entity).2.2
            ++ failedRenames
              (rename_entity false ignoredDirs fs path pathStr is_file entity).1) :=
  ⟨fun fuel ig fs path pathStr => walk_dry ig fuel fs path pathStr,
   fun ig fs path pathStr isf entity =>
    ⟨(rename_entity_dry ig fs path pathStr isf entity).1,
     (rename_entity_dry ig fs path pathStr isf entity).2,
     rename_entity_dry_live ig fs path pathStr isf entity⟩⟩

theorem walkCalls_mem (ignoredDirs : List String) :
    ∀ (fuel : Nat) (fs : List FSEntry) (path : List String),
      ∀ c ∈ walkCalls ignoredDirs fuel fs path,
        (∃ q, c.1 = path ++ q ∧
          ∀ d ∈ q, strStarts d "." = false ∧ ignoredDirs.contains d = false) ∧
        (c.2.2 = true → strStarts c.2.1 "." = false) ∧
        (c.2.2 = false → strStarts c.2.1 "." = false ∧
          ignoredDirs.contains c.2.1 = false) := by
  intro fuel
  induction fuel with
  | zero => intro fs path c hc; simp [walkCalls] at hc
  | succ f ih =>
    intro fs path c hc
    unfold walkCalls at hc
    cases hg : getDir fs path with
    | none => rw [hg] at hc; simp at hc
    | some es =>
      rw [hg] at hc
      rcases List.mem_append.mp hc with hc2 | hc2
      · rcases List.mem_append.mp hc2 with hc3 | hc3
        · obtain ⟨fN, hfmem, rfl⟩ := List.mem_map.mp hc3
          have hfprop : (!strStarts fN ".") = true := by
            unfold levelFiles at hfmem
            exact (List.mem_filter.mp hfmem).2
          refine ⟨⟨[], by simp, by simp⟩, ?_, ?_⟩
          · intro _
            simpa using hfprop
          · intro hfalse
            simp at hfalse
        · obtain ⟨dN, hdmem, rfl⟩ := List.mem_map.mp hc3
          have hdprop : (!strStarts dN "." && !ignoredDirs.contains dN) = true := by
            unfold levelDirs at hdmem
            exact (List.mem_filter.mp hdmem).2
          rw [Bool.and_eq_true] at hdprop
          refine ⟨⟨[], by simp, by simp⟩, ?_, ?_⟩
          · intro htrue
            simp at htrue
          · intro _
            exact ⟨by simpa using hdprop.1, by simpa using hdprop.2⟩
      · rw [List.mem_flatMap] at hc2
        obtain ⟨dN, hdmem, hcw⟩ := hc2
        have hdprop : (!strStarts dN "." && !ignoredDirs.contains dN) = true := by
          unfold levelDirs at hdmem
          exact (List.mem_filter.mp hdmem).2
        rw [Bool.and_eq_true] at hdprop
        obtain ⟨⟨q, hq, hqc⟩, h2, h3⟩ := ih fs (path ++ [dN]) c hcw
        refine ⟨⟨dN :: q, ?_, ?_⟩, h2, h3⟩
        · rw [hq]
          simp
        · intro d hd
          rcases List.mem_cons.mp hd with rfl | hd2
          · exact ⟨by simpa using hdprop.1, by simpa using hdprop.2⟩
          · exact hqc d hd2

/-- C9.  Traversal order and pruning of `walk_directory`, stated on the
pure call sequence of the walk (lines 101–108 of the source) over a static
tree: (1) the calls the walk makes at any directory level — the level is
any invocation root `path`, and every level of the tree is such a root of
a recursive invocation — are exactly that level's non-hidden files first,
then its surviving directories, never interleaved: everything deeper
carries a strictly longer path and is filtered out; (2) every visited
path extends the root only by components that are neither hidden nor in
the ignore set, so the contents of a pruned directory are never visited;
(3) a processed file entity is never hidden, and a processed directory
entity is never hidden nor ignored. -/
theorem c9_files_first_and_pruning (ignoredDirs : List String) (fuel : Nat)
    (fs : List FSEntry) (path : List String) :
    ((walkCalls ignoredDirs (fuel + 1) fs path).filter
        (fun c => decide (c.1 = path)) = levelCallsAt ignoredDirs fs path) ∧
    (∀ c ∈ walkCalls ignoredDirs (fuel + 1) fs path,
      (∃ q, c.1 = path ++ q ∧
        ∀ d ∈ q, strStarts d "." = false ∧ ignoredDirs.contains d = false) ∧
      (c.2.2 = true → strStarts c.2.1 "." = false) ∧
      (c.2.2 = false → strStarts c.2.1 "." = false ∧
        ignoredDirs.contains c.2.1 = false)) := by
  constructor
  · unfold walkCalls levelCallsAt
    cases hg : getDir fs path with
    | none => simp
    | some es =>
      rw [List.filter_append, List.filter_append]
      have hA : ((levelFiles es).map (fun f => (path, f, true))).filter
          (fun c => decide (c.1 = path))
          = (levelFiles es).map (fun f => (path, f, true)) := by
        rw [List.filter_eq_self]
        intro c hcm
        obtain ⟨fN, _, rfl⟩ := List.mem_map.mp hcm
        simp
      have hB : ((levelDirs es ignoredDirs).map (fun d => (path, d, false))).filter
          (fun c => decide (c.1 = path))
          = (levelDirs es ignoredDirs).map (fun d => (path, d, false)) := by
        rw [List.filter_eq_self]
        intro c hcm
        obtain ⟨dN, _, rfl⟩ := List.mem_map.mp hcm
        simp
      have hC : ((levelDirs es ignoredDirs).flatMap
          (fun d => walkCalls ignoredDirs fuel fs (path ++ [d]))).filter
          (fun c => decide (c.1 = path)) = [] := by
        rw [List.filter_eq_nil_iff]
        intro c hcm
        rw [List.mem_flatMap] at hcm
        obtain ⟨dN, _, hcw⟩ := hcm
        obtain ⟨⟨q, hq, _⟩, _, _⟩ := walkCalls_mem ignoredDirs fuel fs
          (path ++ [dN]) c hcw
        have hne : c.1 ≠ path := by
          rw [hq]
          intro hEq
          have hlen := congrArg List.length hEq
          simp [List.length_append] at hlen
        simp [hne]
      rw [hA, hB, hC, List.append_nil]
  · exact walkCalls_mem ignoredDirs (fuel + 1) fs path

/-- C9 witness: a small tree with a hidden directory, an ignored
directory, a hidden file, plain files and a nested file; the level filter
of the call sequence is files-then-directories, and the one deep call
sits on a clean path. -/
theorem c9_files_first_and_pruning_witness :
    ((walkCalls ["skipme"] 2
        [FSEntry.dir ".git" [FSEntry.file "x.mkv"],
         FSEntry.dir "skipme" [FSEntry.file "y.mkv"],
         FSEntry.dir "keep" [FSEntry.file "b.2000.mkv"],
         FSEntry.file "top.mkv", FSEntry.file ".hid"] []).filter
        (fun c => decide (c.1 = ([] : List String)))
      = [([], "top.mkv", true), ([], "keep", false)]) ∧
    (∃ q, (["keep"] : List String) = [] ++ q ∧
      ∀ d ∈ q, strStarts d "." = false ∧ ["skipme"].contains d = false) := by
  have h := c9_files_first_and_pruning ["skipme"] 1
    [FSEntry.dir ".git" [FSEntry.file "x.mkv"],
     FSEntry.dir "skipme" [FSEntry.file "y.mkv"],
     FSEntry.dir "keep" [FSEntry.file "b.2000.mkv"],
     FSEntry.file "top.mkv", FSEntry.file ".hid"] []
  constructor
  · rw [h.1]
    decide
  · exact (h.2 (["keep"], "b.2000.mkv", true) (by decide)).1

end Plex
